import Mathlib

/-!
# Verification of the batch-video-transcoder scheduling core

A shallow embedding of `batch-video-transcoder.py` (version 1.0.0):
the counting work queue (`CustomAsyncQueue`), the transcode and VMAF
worker loop bodies, the feedback control policy, input deduplication and
queue seeding, and the completion-detection protocol
(`queues_wait_for_done`), together with theorems checking the program's
natural-language specification against this embedding.

External collaborators (the `ffmpeg` subprocess for encoding and VMAF
measurement) are modelled by their observable results: a completed
process is a `ProcResult` carrying its exit status and its captured
output; cooperative-`asyncio` interleaving is modelled by a small-step
transition relation whose atomic blocks are at least as fine as the
real suspension points.

Machine integers (`cq` parameters, exit codes, the queue counters) are
Python arbitrary-precision integers, embedded as `Int`; floating-point
VMAF scores and thresholds enter the control flow only through order
comparisons and are embedded as `Rat`.
-/

set_option autoImplicit false

namespace BatchTranscoder

/-! ## Path model (`os.path` on POSIX)

The script computes output paths with `path.splitext`, `path.basename`,
`path.join` and `path.normpath` (lines 257–258).  These are modelled on
`List Char`; `rfind`-based scans from the right in `posixpath` become
`reverse`/`takeWhile`/`dropWhile`.
-/

/-- `notSlash c` holds iff `c` is not the POSIX path separator. -/
def notSlash (c : Char) : Bool := c ≠ '/'

/-- `notDot c` holds iff `c` is not `'.'`. -/
def notDot (c : Char) : Bool := c ≠ '.'

/-- `isDotC c` holds iff `c` is `'.'`. -/
def isDotC (c : Char) : Bool := c = '.'

/-- `posixpath.basename`: everything after the last `'/'`
(`p[p.rfind('/')+1:]`). -/
def basenameL (p : List Char) : List Char :=
  (p.reverse.takeWhile notSlash).reverse

/-- The complement of `basenameL`: everything up to and including the
last `'/'`, so that `p = dirPart p ++ basenameL p`. -/
def dirPart (p : List Char) : List Char :=
  (p.reverse.dropWhile notSlash).reverse

/-- The root part of `posixpath.splitext` restricted to a final path
component `b`: if the last `'.'` of `b` has a non-dot character before
it, cut there; a component consisting of leading dots only (such as
`.bashrc`) is not split. -/
def splitExtRootB (b : List Char) : List Char :=
  let dots := b.takeWhile isDotC
  let core := b.dropWhile isDotC
  if '.' ∈ core then
    dots ++ ((core.reverse.dropWhile notDot).drop 1).reverse
  else b

/-- `posixpath.splitext(p)[0]`: the extension is sought only in the
final component, so the root is the directory part unchanged plus the
split final component. -/
def splitRoot (p : List Char) : List Char :=
  dirPart p ++ splitExtRootB (basenameL p)

/-- `posixpath.join(a, b)` for two operands: an absolute `b` replaces
`a`; otherwise a separator is inserted unless `a` is empty or already
ends with one. -/
def joinL (a b : List Char) : List Char :=
  if b.head? = some '/' then b
  else if a = [] ∨ a.getLast? = some '/' then a ++ b
  else a ++ '/' :: b

/-- Split a character list on `'/'` (Python `str.split('/')`); always
returns at least one (possibly empty) component. -/
def splitSlash : List Char → List (List Char)
  | [] => [[]]
  | c :: rest =>
    match splitSlash rest with
    | [] => [[c]]
    | h :: t => if c = '/' then [] :: h :: t else (c :: h) :: t

/-- `'/'.join` on components. -/
def joinComps : List (List Char) → List Char
  | [] => []
  | [c] => c
  | c :: rest => c ++ '/' :: joinComps rest

/-- One step of `posixpath.normpath`'s component loop: drop empty and
`'.'` components, append ordinary components, and let `'..'` pop the
previous component unless it must be kept. -/
def normStep (initialSlashes : Bool) (acc : List (List Char)) (comp : List Char) :
    List (List Char) :=
  if comp = [] ∨ comp = ['.'] then acc
  else if comp ≠ ['.', '.'] ∨ (¬ initialSlashes ∧ acc = []) ∨ acc.getLast? = some ['.', '.'] then
    acc ++ [comp]
  else if acc ≠ [] then acc.dropLast
  else acc

/-- `leadsWith u v` decides whether `u` is an initial segment of `v`. -/
def leadsWith : List Char → List Char → Bool
  | [], _ => true
  | _ :: _, [] => false
  | c :: cs, d :: ds => c = d && leadsWith cs ds

/-- `posixpath.normpath`: empty path becomes `'.'`, one or three or more
leading slashes collapse to one, exactly two are kept, and the
component loop of `normStep` runs over the slash-split path. -/
def normpathL (p : List Char) : List Char :=
  if p = [] then ['.']
  else
    let initialSlashes : Bool := p.head? = some '/'
    let slashCount : Nat :=
      if initialSlashes then
        (if leadsWith ['/', '/'] p ∧ ¬ (leadsWith ['/', '/', '/'] p) then 2 else 1)
      else 0
    let newComps := (splitSlash p).foldl (normStep initialSlashes) []
    let joined := List.replicate slashCount '/' ++ joinComps newComps
    if joined = [] then ['.'] else joined

/-- Line 257: `out_name = path.basename(path.splitext(input_file)[0] + ext)`. -/
def out_nameL (input_file ext : List Char) : List Char :=
  basenameL (splitRoot input_file ++ ext)

/-- Lines 257–258: the seeded output path
`path.normpath(path.join(output_dir, out_name))` as a `String`. -/
def out_path (output_dir input_file ext : String) : String :=
  ⟨normpathL (joinL output_dir.data (out_nameL input_file.data ext.data))⟩

/-- Line 38: `DEFAULT_OUT_FILE_EXTENSION = ".mkv"`. -/
def DEFAULT_OUT_FILE_EXTENSION : String := ".mkv"

/-! ## Work items and worker events

The Encode Queue carries the tuples `(in_path, out_path, cq)` dequeued
on line 144; the Quality-Check Queue carries `(distorted, reference, cq)`
dequeued on line 194.
-/

/-- An Encode Queue work item `(in_path, out_path, cq)`. -/
structure TItem where
  sourcePath : String
  outputPath : String
  parameter : Int
deriving DecidableEq

/-- A Quality-Check Queue work item `(distorted, reference, cq)`. -/
structure VItem where
  candidatePath : String
  referencePath : String
  parameter : Int
deriving DecidableEq

/-- The queue operations a worker iteration performs after its dequeue,
in program order: enqueue onto the Encode Queue (`transcode_q.put`),
enqueue onto the Quality-Check Queue (`vmaf_q.put`), or mark the
dequeued item done (`task_done`) on one of the two queues. -/
inductive Ev where
  | enqT (it : TItem)
  | enqV (it : VItem)
  | doneT
  | doneV
deriving DecidableEq

/-- `isDoneEv e` holds iff `e` is a `task_done` call. -/
def isDoneEv : Ev → Bool
  | Ev.doneT => true
  | Ev.doneV => true
  | _ => false

/-- The Encode Queue items enqueued during a trace. -/
def enqTs (tr : List Ev) : List TItem :=
  tr.filterMap fun e => match e with | Ev.enqT it => some it | _ => none

/-- The Quality-Check Queue items enqueued during a trace. -/
def enqVs (tr : List Ev) : List VItem :=
  tr.filterMap fun e => match e with | Ev.enqV it => some it | _ => none

/-! ## External processes

`ffmpeg_run_async` (lines 95–115) launches the command, waits for it,
and returns the captured output (stderr is merged into stdout).  The
exit status of the completed process is neither inspected nor returned
to any caller anywhere in the script.
-/

/-- The observable result of one completed external `ffmpeg` process:
its exit status and its captured (merged) output. -/
structure ProcResult where
  returncode : Int
  stdout : String
deriving DecidableEq

/-- Lines 95–115: the value `ffmpeg_run_async` hands back to its caller
is the captured output alone; the exit status is dropped. -/
def ffmpeg_run_async (p : ProcResult) : String := p.stdout

/-! ## The VMAF score parser (lines 156–162)

`vmaf_get_score` runs
`re.search(r"(?<=VMAF score: )\d+\.\d+", stdout.decode())` and converts
the match with `float`.  The regex has no backtracking freedom: at a
candidate position the engine takes the maximal digit run, requires a
literal dot, then a further nonempty digit run, with the fixed literal
`"VMAF score: "` as look-behind; `re.search` tries candidate positions
left to right.
-/

/-- ASCII digit test (the script's `ffmpeg` output is ASCII). -/
def isDigitC (c : Char) : Bool := c.isDigit

/-- Value of a digit run, most significant first. -/
def digitsVal (ds : List Char) : Nat :=
  ds.foldl (fun acc c => 10 * acc + (c.toNat - 48)) 0

/-- Match `\d+\.\d+` at the start of `cs` and convert it as Python
`float` does on such a literal, exactly: take the maximal leading digit
run, require a literal dot, then a further nonempty maximal digit
run. -/
def matchNum (cs : List Char) : Option Rat :=
  if (cs.takeWhile isDigitC).isEmpty then none
  else if (cs.dropWhile isDigitC).head? = some '.' then
    if (((cs.dropWhile isDigitC).tail).takeWhile isDigitC).isEmpty then none
    else
      some (mkRat
        (digitsVal (cs.takeWhile isDigitC)
            * 10 ^ (((cs.dropWhile isDigitC).tail).takeWhile isDigitC).length
          + digitsVal (((cs.dropWhile isDigitC).tail).takeWhile isDigitC))
        (10 ^ (((cs.dropWhile isDigitC).tail).takeWhile isDigitC).length))
  else none

/-- The look-behind literal `"VMAF score: "`. -/
def vmafTag : List Char := "VMAF score: ".data

/-- `vmafTag` reversed, to check the look-behind against the reversed
consumed input. -/
def vmafTagR : List Char := vmafTag.reverse

/-- Scan of `re.search`: `rpre` is the consumed input in reverse; at
each position, if the look-behind holds and `\d+\.\d+` matches, return
that (leftmost) match, else advance one character. -/
def vmafSearch : List Char → List Char → Option Rat
  | _, [] => none
  | rpre, c :: rest =>
    match (if leadsWith vmafTagR rpre then matchNum (c :: rest) else none) with
    | some v => some v
    | none => vmafSearch (c :: rpre) rest

/-- Lines 156–162: `vmaf_get_score(stdout)`. -/
def vmaf_get_score (stdout : String) : Option Rat :=
  vmafSearch [] stdout.data

/-- Written from the claim's words, not from the source (for the
refinement statement of the parser): the output contains the literal
text `"VMAF score: "` immediately followed by one or more digits, a
decimal point, and one or more digits. -/
def scoreSpecPattern (stdout : String) : Prop :=
  ∃ a ds fs b, stdout.data = a ++ vmafTag ++ ds ++ '.' :: (fs ++ b)
    ∧ ds ≠ [] ∧ fs ≠ []
    ∧ (∀ c ∈ ds, isDigitC c = true) ∧ (∀ c ∈ fs, isDigitC c = true)

/-! ## Worker loop bodies

One iteration of each worker loop, between its dequeue and its return
to the blocking dequeue, as the ordered list of queue operations it
performs.  The external invocation's observable result is a parameter.
-/

/-- Lines 143–153, one iteration of `transcode_worker` after dequeuing
`it`: run the encode (its result is discarded — `transcode_async`
ignores what `ffmpeg_run_async` returns), enqueue
`(out_path, in_path, cq)` onto the Quality-Check Queue, then mark the
encode item done. -/
def transcode_worker_iter (it : TItem) (enc : ProcResult) : List Ev :=
  let _ := ffmpeg_run_async enc
  [Ev.enqV ⟨it.outputPath, it.sourcePath, it.parameter⟩, Ev.doneT]

/-- Lines 200–204: given a measured score, the retried parameter, if
any: `new_cq = cq - cq_step`, retried exactly when
`vmaf_score < threshold and new_cq >= 0`. -/
def next_cq (threshold : Rat) (cq_step : Int) (score : Rat) (cq : Int) : Option Int :=
  let new_cq := cq - cq_step
  if score < threshold ∧ 0 ≤ new_cq then some new_cq else none

/-- Lines 200–212, the branch on the measurement outcome of one
`vmaf_worker` iteration holding `it`: with a score, enqueue
`(reference, distorted, new_cq)` onto the Encode Queue exactly when
`next_cq` permits; with no score, re-enqueue the dequeued tuple
unchanged onto the Quality-Check Queue; in all cases finish with one
`task_done` on the Quality-Check Queue. -/
def vmaf_decision_events (threshold : Rat) (cq_step : Int) (it : VItem)
    (score : Option Rat) : List Ev :=
  match score with
  | some s =>
    (match next_cq threshold cq_step s it.parameter with
     | some n => [Ev.enqT ⟨it.referencePath, it.candidatePath, n⟩]
     | none => []) ++ [Ev.doneV]
  | none => [Ev.enqV it, Ev.doneV]

/-- Lines 193–212, one iteration of `vmaf_worker` after dequeuing `it`:
the score is parsed from the measurement process's output
(`vmaf_async`, lines 165–181), then the branch above runs. -/
def vmaf_worker_iter (threshold : Rat) (cq_step : Int) (it : VItem)
    (proc : ProcResult) : List Ev :=
  vmaf_decision_events threshold cq_step it (vmaf_get_score (ffmpeg_run_async proc))

/-! ## `CustomAsyncQueue` (lines 41–55) -/

/-- The state of a `CustomAsyncQueue`: the buffered items of the
underlying `asyncio.Queue` plus the `_unfinished_tasks_custom` counter.
The base class's own `_unfinished_tasks` always equals the custom one
(both are bumped by the same overridden methods), so one field models
both. -/
structure CustomAsyncQueue (α : Type) where
  pending : List α
  unfinished : Int
deriving DecidableEq

/-- A freshly constructed queue (line 42–44): empty, counter `0`. -/
def emptyQueue {α : Type} : CustomAsyncQueue α := ⟨[], 0⟩

/-- Lines 46–48: `put_nowait` appends and increments the counter. -/
def put_nowait {α : Type} (q : CustomAsyncQueue α) (a : α) : CustomAsyncQueue α :=
  ⟨q.pending ++ [a], q.unfinished + 1⟩

/-- `asyncio.Queue.put` on this unbounded queue (`maxsize=0`) never
blocks and delegates to the overridden `put_nowait`. -/
def put {α : Type} (q : CustomAsyncQueue α) (a : α) : CustomAsyncQueue α :=
  put_nowait q a

/-- `asyncio.Queue.get`: pops the first buffered item; when the buffer
is empty the caller blocks, so no completed `get` exists (`none`).
Neither counter is touched. -/
def qget {α : Type} (q : CustomAsyncQueue α) : Option (α × CustomAsyncQueue α) :=
  match q.pending with
  | [] => none
  | a :: r => some (a, ⟨r, q.unfinished⟩)

/-- Lines 50–52: `task_done` first calls the base method — which raises
`ValueError` when the counter is not positive (modelled as `none`) —
then decrements the custom counter. -/
def task_done {α : Type} (q : CustomAsyncQueue α) : Option (CustomAsyncQueue α) :=
  if q.unfinished ≤ 0 then none
  else some ⟨q.pending, q.unfinished - 1⟩

/-- Lines 54–55: a non-blocking read of the custom counter. -/
def get_unfinished_tasks {α : Type} (q : CustomAsyncQueue α) : Int :=
  q.unfinished

/-- One queue operation, for stating counter facts over operation
sequences. -/
inductive QOp (α : Type) where
  | putNowaitOp (a : α)
  | putOp (a : α)
  | getOp
  | taskDoneOp

/-- Run one operation; `none` when it cannot complete (a blocked `get`
or a raising `task_done`). -/
def applyOp {α : Type} (q : CustomAsyncQueue α) : QOp α → Option (CustomAsyncQueue α)
  | QOp.putNowaitOp a => some (put_nowait q a)
  | QOp.putOp a => some (put q a)
  | QOp.getOp => match qget q with | none => none | some (_, q') => some q'
  | QOp.taskDoneOp => task_done q

/-- Run a sequence of operations. -/
def applyOps {α : Type} (q : CustomAsyncQueue α) : List (QOp α) → Option (CustomAsyncQueue α)
  | [] => some q
  | op :: rest =>
    match applyOp q op with
    | none => none
    | some q' => applyOps q' rest

/-- The number of enqueue operations in a sequence. -/
def enqCount {α : Type} : List (QOp α) → Int
  | [] => 0
  | QOp.putNowaitOp _ :: rest => enqCount rest + 1
  | QOp.putOp _ :: rest => enqCount rest + 1
  | _ :: rest => enqCount rest

/-- The number of `task_done` operations in a sequence. -/
def doneCount {α : Type} : List (QOp α) → Int
  | [] => 0
  | QOp.taskDoneOp :: rest => doneCount rest + 1
  | _ :: rest => doneCount rest

/-! ## Deduplication and seeding (lines 241–259) -/

/-- Python `dict.fromkeys`: keys keep their first-insertion position,
later duplicates are dropped. -/
def dedupAux (seen : List String) : List String → List String
  | [] => []
  | f :: rest =>
    if f ∈ seen then dedupAux seen rest
    else f :: dedupAux (f :: seen) rest

/-- Lines 241–242: `deduplicate_files(files) = list(dict.fromkeys(files))`. -/
def deduplicate_files (files : List String) : List String :=
  dedupAux [] files

/-- Lines 245–259, `queues_populate`: deduplicate the inputs, then for
each one `put_nowait` the item `(input_file, out_path, init_cq)` onto
the Encode Queue.  This is the resulting list of seeded items, in
enqueue order. -/
def seedItems (input_files : List String) (output_dir : String) (init_cq : Int)
    (ext : String) : List TItem :=
  (deduplicate_files input_files).map fun input_file =>
    ⟨input_file, out_path output_dir input_file ext, init_cq⟩

/-! ## The feedback search per logical task (C6)

The parameters an input visits across retries: attempt `k+1` exists
exactly when the `vmaf_worker` branch (`next_cq`) enqueues a retry for
attempt `k`'s parameter under attempt `k`'s measured score.
-/

/-- The parameter used by attempt `k` of one logical task (`none` once
the task has reached Accept or Abandon and makes no further attempt),
for an arbitrary stream of measured scores. -/
def paramSeq (threshold : Rat) (cq_step : Int) (scores : Nat → Rat) (init : Int) :
    Nat → Option Int
  | 0 => some init
  | k + 1 =>
    match paramSeq threshold cq_step scores init k with
    | some p => next_cq threshold cq_step (scores k) p
    | none => none

/-! ## The concurrent system (C1)

A small-step model of the whole pipeline: the two queues (buffer plus
counter, exactly as `CustomAsyncQueue` keeps them), one state per
worker, and the orchestrator's completion check.  Atomic blocks are at
most one queue operation or one dequeue — strictly finer than the real
`asyncio` suspension points, so every real interleaving is one of
these.  The orchestrator's check is one step because the `while`
condition on line 268 and the `task.cancel()` loop on lines 272–273
contain no `await` between reading the two counters and cancelling.
-/

/-- A transcode worker: blocked at `get` (line 144), holding a dequeued
item before its `vmaf_q.put` (line 150), or between that put and its
`task_done` (line 151). -/
inductive TW where
  | idle
  | working (it : TItem)
  | finishing (it : TItem)
deriving DecidableEq

/-- A VMAF worker: blocked at `get` (line 194), holding a dequeued item
before the branch (lines 200–210), or between the branch's puts and its
`task_done` (line 212). -/
inductive VW where
  | idle
  | working (it : VItem)
  | finishing (it : VItem)
deriving DecidableEq

/-- A transcode worker holds an item it has not yet marked done. -/
def twLive : TW → Bool
  | TW.idle => false
  | _ => true

/-- A VMAF worker holds an item it has not yet marked done. -/
def vwLive : VW → Bool
  | VW.idle => false
  | _ => true

/-- The global state: both queues (buffer and
`_unfinished_tasks_custom` counter), the worker pools, and whether the
orchestrator has cancelled the workers. -/
structure Sys where
  tqP : List TItem
  tqO : Int
  vqP : List VItem
  vqO : Int
  tws : List TW
  vws : List VW
  cancelled : Bool
deriving DecidableEq

/-- One atomic step of any task of the program.  Worker effects are the
enqueues of the corresponding iteration trace; every enqueue bumps the
destination's counter with the buffer, as `put_nowait` does, and every
`task_done` decrements the consumed queue's counter.  `orchCancel` is
the exit of `queues_wait_for_done`'s loop (lines 268–273): it fires
exactly when its atomically evaluated condition
`tq.get_unfinished_tasks() > 0 or vq.get_unfinished_tasks() > 0` is
false. -/
inductive Step (threshold : Rat) (cq_step : Int) : Sys → Sys → Prop where
  | tGet {s : Sys} (i : Nat) (it : TItem) (rest : List TItem) :
      s.cancelled = false →
      s.tws.get? i = some TW.idle →
      s.tqP = it :: rest →
      Step threshold cq_step s
        { s with tqP := rest, tws := s.tws.set i (TW.working it) }
  | tFin {s : Sys} (i : Nat) (it : TItem) (enc : ProcResult) :
      s.cancelled = false →
      s.tws.get? i = some (TW.working it) →
      Step threshold cq_step s
        { s with
          tqP := s.tqP ++ enqTs (transcode_worker_iter it enc),
          tqO := s.tqO + (enqTs (transcode_worker_iter it enc)).length,
          vqP := s.vqP ++ enqVs (transcode_worker_iter it enc),
          vqO := s.vqO + (enqVs (transcode_worker_iter it enc)).length,
          tws := s.tws.set i (TW.finishing it) }
  | tDone {s : Sys} (i : Nat) (it : TItem) :
      s.cancelled = false →
      s.tws.get? i = some (TW.finishing it) →
      Step threshold cq_step s
        { s with tqO := s.tqO - 1, tws := s.tws.set i TW.idle }
  | vGet {s : Sys} (i : Nat) (it : VItem) (rest : List VItem) :
      s.cancelled = false →
      s.vws.get? i = some VW.idle →
      s.vqP = it :: rest →
      Step threshold cq_step s
        { s with vqP := rest, vws := s.vws.set i (VW.working it) }
  | vFin {s : Sys} (i : Nat) (it : VItem) (proc : ProcResult) :
      s.cancelled = false →
      s.vws.get? i = some (VW.working it) →
      Step threshold cq_step s
        { s with
          tqP := s.tqP ++ enqTs (vmaf_worker_iter threshold cq_step it proc),
          tqO := s.tqO + (enqTs (vmaf_worker_iter threshold cq_step it proc)).length,
          vqP := s.vqP ++ enqVs (vmaf_worker_iter threshold cq_step it proc),
          vqO := s.vqO + (enqVs (vmaf_worker_iter threshold cq_step it proc)).length,
          vws := s.vws.set i (VW.finishing it) }
  | vDone {s : Sys} (i : Nat) (it : VItem) :
      s.cancelled = false →
      s.vws.get? i = some (VW.finishing it) →
      Step threshold cq_step s
        { s with vqO := s.vqO - 1, vws := s.vws.set i VW.idle }
  | orchCancel {s : Sys} :
      s.cancelled = false →
      ¬ (s.tqO > 0 ∨ s.vqO > 0) →
      Step threshold cq_step s { s with cancelled := true }

/-- The initial state after `queues_populate` and `workers_create`
(lines 333–346): the Encode Queue seeded (its counter bumped once per
`put_nowait`), the Quality-Check Queue empty, all workers blocked at
their first dequeue, nothing cancelled. -/
def initSys (input_files : List String) (output_dir : String) (init_cq : Int)
    (ext : String) (nT nV : Nat) : Sys :=
  { tqP := seedItems input_files output_dir init_cq ext,
    tqO := (seedItems input_files output_dir init_cq ext).length,
    vqP := [],
    vqO := 0,
    tws := List.replicate nT TW.idle,
    vws := List.replicate nV VW.idle,
    cancelled := false }

/-- States reachable from `s0` by the step relation. -/
inductive Reachable (threshold : Rat) (cq_step : Int) (s0 : Sys) : Sys → Prop where
  | init : Reachable threshold cq_step s0 s0
  | step {s s' : Sys} :
      Reachable threshold cq_step s0 s →
      Step threshold cq_step s s' →
      Reachable threshold cq_step s0 s'

/-- The counter-accounting invariant: each queue's
`_unfinished_tasks_custom` equals its buffered items plus the items
dequeued by its consumers and not yet marked done. -/
def QInv (s : Sys) : Prop :=
  s.tqO = (s.tqP.length : Int) + (s.tws.countP twLive : Int)
  ∧ s.vqO = (s.vqP.length : Int) + (s.vws.countP vwLive : Int)

/-! ## Theorems -/

/-- Running a sequence of queue operations to completion changes the
counter by the number of enqueues minus the number of `task_done`s. -/
theorem applyOps_unfinished {α : Type} :
    ∀ (ops : List (QOp α)) (q q' : CustomAsyncQueue α),
      applyOps q ops = some q' →
      q'.unfinished = q.unfinished + enqCount ops - doneCount ops := by
  intro ops
  induction ops with
  | nil =>
    intro q q' h
    simp only [applyOps] at h
    cases h
    simp [enqCount, doneCount]
  | cons op rest ih =>
    intro q q' h
    simp only [applyOps] at h
    rcases hop : applyOp q op with _ | q1
    · rw [hop] at h; cases h
    · rw [hop] at h
      have hrest := ih q1 q' h
      cases op with
      | putNowaitOp a =>
        simp only [applyOp, put_nowait] at hop
        cases hop
        simp only [enqCount, doneCount, put_nowait] at *
        omega
      | putOp a =>
        simp only [applyOp, put, put_nowait] at hop
        cases hop
        simp only [enqCount, doneCount] at *
        omega
      | getOp =>
        simp only [applyOp, qget] at hop
        rcases hq : q.pending with _ | ⟨x, r⟩
        · rw [hq] at hop; cases hop
        · rw [hq] at hop
          simp only [Option.some.injEq] at hop
          cases hop
          simp only [enqCount, doneCount] at *
          omega
      | taskDoneOp =>
        simp only [applyOp, task_done] at hop
        by_cases hle : q.unfinished ≤ 0
        · rw [if_pos hle] at hop; cases hop
        · rw [if_neg hle] at hop
          simp only [Option.some.injEq] at hop
          cases hop
          simp only [enqCount, doneCount] at *
          omega

/-- C4: for every counting queue and every sequence of operations on
it, each enqueue (`put_nowait` or `put`) increments the outstanding
count by exactly one, each completed `task_done` decrements it by
exactly one, a completed `get` leaves it unchanged,
`get_unfinished_tasks` returns the current value without blocking, and
over any completed operation sequence from a fresh queue the count
equals enqueues minus mark-dones. -/
theorem c4_counting_queue {α : Type} (q : CustomAsyncQueue α) (a : α)
    (ops : List (QOp α)) (q' : CustomAsyncQueue α) :
    (put_nowait q a).unfinished = q.unfinished + 1
  ∧ (put q a).unfinished = q.unfinished + 1
  ∧ (∀ x q2, qget q = some (x, q2) → q2.unfinished = q.unfinished)
  ∧ (∀ q2, task_done q = some q2 → q2.unfinished = q.unfinished - 1)
  ∧ get_unfinished_tasks q = q.unfinished
  ∧ (applyOps emptyQueue ops = some q' →
      q'.unfinished = enqCount ops - doneCount ops) := by
  refine ⟨rfl, rfl, ?_, ?_, rfl, ?_⟩
  · intro x q2 h
    simp only [qget] at h
    rcases hq : q.pending with _ | ⟨y, r⟩
    · rw [hq] at h; cases h
    · rw [hq] at h
      simp only [Option.some.injEq, Prod.mk.injEq] at h
      rw [← h.2]
  · intro q2 h
    simp only [task_done] at h
    by_cases hle : q.unfinished ≤ 0
    · rw [if_pos hle] at h; cases h
    · rw [if_neg hle] at h
      simp only [Option.some.injEq] at h
      rw [← h]
  · intro h
    have := applyOps_unfinished ops emptyQueue q' h
    simpa [emptyQueue] using this

/-- C4 witness: a concrete run — two enqueues, one dequeue, one
mark-done — ends with counter `2 - 1 = 1`, and the single-operation
facts hold on the concrete queue `⟨[7], 3⟩`. -/
theorem c4_counting_queue_witness :
    (⟨[], 3⟩ : CustomAsyncQueue Nat).unfinished = 3
  ∧ (⟨[7], 2⟩ : CustomAsyncQueue Nat).unfinished = 3 - 1
  ∧ (⟨[1], 1⟩ : CustomAsyncQueue Nat).unfinished =
      enqCount [QOp.putNowaitOp 0, QOp.putOp 1, QOp.getOp, QOp.taskDoneOp]
      - doneCount [QOp.putNowaitOp 0, QOp.putOp 1, QOp.getOp, QOp.taskDoneOp] :=
  ⟨(c4_counting_queue (⟨[7], 3⟩ : CustomAsyncQueue Nat) 0 [] emptyQueue).2.2.1
      7 ⟨[], 3⟩ (by decide),
   (c4_counting_queue (⟨[7], 3⟩ : CustomAsyncQueue Nat) 0 [] emptyQueue).2.2.2.1
      ⟨[7], 2⟩ (by decide),
   (c4_counting_queue (⟨[], 0⟩ : CustomAsyncQueue Nat) 0
      [QOp.putNowaitOp 0, QOp.putOp 1, QOp.getOp, QOp.taskDoneOp] ⟨[1], 1⟩).2.2.2.2.2
      (by decide)⟩

/-- C2: given a measured score, the quality-check branch accepts (no
enqueue) when `score ≥ threshold`, enqueues exactly the one retry item
`(referencePath, candidatePath, parameter - step)` when
`score < threshold` and `parameter - step ≥ 0`, and abandons (no
enqueue) when `score < threshold` and `parameter - step < 0`; in each
case the dequeued item is marked done. -/
theorem c2_feedback_decision (threshold : Rat) (cq_step : Int) (it : VItem) (s : Rat) :
    (threshold ≤ s →
      vmaf_decision_events threshold cq_step it (some s) = [Ev.doneV])
  ∧ (s < threshold → 0 ≤ it.parameter - cq_step →
      vmaf_decision_events threshold cq_step it (some s)
        = [Ev.enqT ⟨it.referencePath, it.candidatePath, it.parameter - cq_step⟩, Ev.doneV])
  ∧ (s < threshold → it.parameter - cq_step < 0 →
      vmaf_decision_events threshold cq_step it (some s) = [Ev.doneV]) := by
  refine ⟨?_, ?_, ?_⟩
  · intro h1
    simp only [vmaf_decision_events, next_cq]
    rw [if_neg]
    · rfl
    · rintro ⟨h2, -⟩
      exact absurd h2 (not_lt.mpr h1)
  · intro h1 h2
    simp only [vmaf_decision_events, next_cq]
    rw [if_pos ⟨h1, h2⟩]
    rfl
  · intro h1 h2
    simp only [vmaf_decision_events, next_cq]
    rw [if_neg]
    · rfl
    · rintro ⟨-, h3⟩
      exact absurd h3 (not_le.mpr h2)

/-- C2 witness: with threshold `95`, step `2`, all three branches at
concrete inputs — score `96` at parameter `40` accepts; score `50` at
parameter `40` enqueues the retry at `38`; score `50` at parameter `1`
abandons. -/
theorem c2_feedback_decision_witness :
    vmaf_decision_events 95 2 ⟨"c", "r", 40⟩ (some 96) = [Ev.doneV]
  ∧ vmaf_decision_events 95 2 ⟨"c", "r", 40⟩ (some 50)
      = [Ev.enqT ⟨"r", "c", 38⟩, Ev.doneV]
  ∧ vmaf_decision_events 95 2 ⟨"c", "r", 1⟩ (some 50) = [Ev.doneV] :=
  ⟨(c2_feedback_decision 95 2 ⟨"c", "r", 40⟩ 96).1 (by decide),
   (c2_feedback_decision 95 2 ⟨"c", "r", 40⟩ 50).2.1 (by decide) (by decide),
   (c2_feedback_decision 95 2 ⟨"c", "r", 1⟩ 50).2.2 (by decide) (by decide)⟩

/-- C3 counterexample: an encode invocation that fails (exit status
`1`): the claim says the worker marks the item done *without*
enqueueing any quality-check item, but the iteration nevertheless
enqueues `("out.mkv", "in.mp4", 40)` onto the Quality-Check Queue —
`transcode_worker` (lines 143–153) never inspects the encode's
outcome. -/
theorem c3_counterexample :
    (⟨1, ""⟩ : ProcResult).returncode ≠ 0
  ∧ Ev.enqV ⟨"out.mkv", "in.mp4", 40⟩ ∈
      transcode_worker_iter ⟨"in.mp4", "out.mkv", 40⟩ ⟨1, ""⟩ := by
  decide

/-- C3 amended: for every work item whose external encode invocation
fails, the encode worker behaves exactly as on success — it enqueues
the one quality-check item `(outputPath, sourcePath, parameter)` and
marks the item done; it never retries the encode and never inspects the
failure. -/
theorem c3_encode_failure_behaviour (it : TItem) (enc : ProcResult)
    (_h : enc.returncode ≠ 0) :
    transcode_worker_iter it enc
      = [Ev.enqV ⟨it.outputPath, it.sourcePath, it.parameter⟩, Ev.doneT] :=
  rfl

/-- C3 amended witness: the concrete failed encode of the
counterexample's shape. -/
theorem c3_encode_failure_behaviour_witness :
    transcode_worker_iter ⟨"in.mp4", "out.mkv", 40⟩ ⟨1, ""⟩
      = [Ev.enqV ⟨"out.mkv", "in.mp4", 40⟩, Ev.doneT] :=
  c3_encode_failure_behaviour ⟨"in.mp4", "out.mkv", 40⟩ ⟨1, ""⟩ (by decide)

/-- C5: in every iteration of either worker loop — over every encode
outcome and every measurement outcome (accept, retry, abandon,
unmeasurable) — the trace of queue operations contains exactly one
`task_done`, it is the last operation, and it is on the consumed
queue; hence every successor enqueue precedes the mark-done. -/
theorem c5_done_last_exactly_once (it : TItem) (enc : ProcResult)
    (threshold : Rat) (cq_step : Int) (vit : VItem) (score : Option Rat) :
    ((transcode_worker_iter it enc).countP isDoneEv = 1
      ∧ (transcode_worker_iter it enc).getLast? = some Ev.doneT)
  ∧ ((vmaf_decision_events threshold cq_step vit score).countP isDoneEv = 1
      ∧ (vmaf_decision_events threshold cq_step vit score).getLast? = some Ev.doneV) := by
  refine ⟨⟨rfl, rfl⟩, ?_, ?_⟩
  · rcases score with _ | s
    · rfl
    · simp only [vmaf_decision_events]
      rcases next_cq threshold cq_step s vit.parameter with _ | n <;> rfl
  · rcases score with _ | s
    · rfl
    · simp only [vmaf_decision_events]
      rcases next_cq threshold cq_step s vit.parameter with _ | n <;> rfl

/-- Attempt `k` of a logical task uses parameter `init - k * cq_step`:
every retry decrements by exactly the fixed step. -/
theorem paramSeq_some_val (threshold : Rat) (cq_step : Int) (scores : Nat → Rat)
    (init : Int) :
    ∀ (k : Nat) (p : Int),
      paramSeq threshold cq_step scores init k = some p → p = init - k * cq_step := by
  intro k
  induction k with
  | zero =>
    intro p h
    simp only [paramSeq, Option.some.injEq] at h
    omega
  | succ k ih =>
    intro p h
    simp only [paramSeq] at h
    rcases hk : paramSeq threshold cq_step scores init k with _ | q
    · rw [hk] at h; cases h
    · rw [hk] at h
      have hq := ih q hk
      simp only [next_cq] at h
      by_cases hc : scores k < threshold ∧ 0 ≤ q - cq_step
      · rw [if_pos hc] at h
        simp only [Option.some.injEq] at h
        rw [← h, hq]
        push_cast
        ring
      · rw [if_neg hc] at h; cases h

/-- Every parameter an attempt actually uses is nonnegative. -/
theorem paramSeq_some_nonneg (threshold : Rat) (cq_step : Int) (scores : Nat → Rat)
    (init : Int) (h0 : 0 ≤ init) :
    ∀ (k : Nat) (p : Int),
      paramSeq threshold cq_step scores init k = some p → 0 ≤ p := by
  intro k
  cases k with
  | zero =>
    intro p h
    simp only [paramSeq, Option.some.injEq] at h
    omega
  | succ k =>
    intro p h
    simp only [paramSeq] at h
    rcases hk : paramSeq threshold cq_step scores init k with _ | q
    · rw [hk] at h; cases h
    · rw [hk] at h
      simp only [next_cq] at h
      by_cases hc : scores k < threshold ∧ 0 ≤ q - cq_step
      · rw [if_pos hc] at h
        simp only [Option.some.injEq] at h
        omega
      · rw [if_neg hc] at h; cases h

/-- C6: for every initial parameter `≥ 0` and fixed step `> 0`, under
an arbitrary stream of measured scores the parameters visited by one
logical task strictly decrease, stay nonnegative, and no attempt with
index beyond `init / cq_step` exists — so the task reaches Accept or
Abandon after at most `init / cq_step + 1` attempts. -/
theorem c6_bounded_search (threshold : Rat) (cq_step : Int) (scores : Nat → Rat)
    (init : Int) (h0 : 0 ≤ init) (hstep : 0 < cq_step) :
    (∀ (k : Nat) (p p' : Int),
        paramSeq threshold cq_step scores init k = some p →
        paramSeq threshold cq_step scores init (k + 1) = some p' →
        p' < p ∧ 0 ≤ p')
  ∧ (∀ (k : Nat) (p : Int),
        paramSeq threshold cq_step scores init k = some p → 0 ≤ p)
  ∧ (∀ k : Nat, init / cq_step < (k : Int) →
        paramSeq threshold cq_step scores init k = none) := by
  refine ⟨?_, paramSeq_some_nonneg threshold cq_step scores init h0, ?_⟩
  · intro k p p' hk hk1
    simp only [paramSeq] at hk1
    rw [hk] at hk1
    simp only [next_cq] at hk1
    by_cases hc : scores k < threshold ∧ 0 ≤ p - cq_step
    · rw [if_pos hc] at hk1
      simp only [Option.some.injEq] at hk1
      omega
    · rw [if_neg hc] at hk1; cases hk1
  · intro k hk
    rcases hsome : paramSeq threshold cq_step scores init k with _ | p
    · rfl
    · exfalso
      have hval := paramSeq_some_val threshold cq_step scores init k p hsome
      have hpos := paramSeq_some_nonneg threshold cq_step scores init h0 k p hsome
      have hmul : (k : Int) * cq_step ≤ init := by omega
      have := (Int.le_ediv_iff_mul_le hstep).mpr hmul
      omega

/-- C6 witness: threshold `95`, step `2`, initial parameter `4`, scores
constantly `50`: attempt indices run out strictly beyond
`4 / 2 = 2` — `paramSeq` is `none` at attempt `3` — and attempt `1`'s
parameter `2` is below attempt `0`'s parameter `4` and nonnegative. -/
theorem c6_bounded_search_witness :
    paramSeq 95 2 (fun _ => 50) 4 3 = none
  ∧ ((2 : Int) < 4 ∧ (0 : Int) ≤ 2) :=
  ⟨(c6_bounded_search 95 2 (fun _ => 50) 4 (by decide) (by decide)).2.2 3 (by decide),
   (c6_bounded_search 95 2 (fun _ => 50) 4 (by decide) (by decide)).1 0 4 2
      (by decide) (by decide)⟩

/-- C7: when the measurement yields no usable score, the quality-check
iteration re-enqueues the identical dequeued tuple onto the
Quality-Check Queue — nothing else — and still marks the dequeued item
done. -/
theorem c7_unmeasurable_requeue (threshold : Rat) (cq_step : Int) (it : VItem)
    (proc : ProcResult) (h : vmaf_get_score (ffmpeg_run_async proc) = none) :
    vmaf_worker_iter threshold cq_step it proc = [Ev.enqV it, Ev.doneV] := by
  unfold vmaf_worker_iter
  rw [h]
  rfl

/-- C7 witness: a measurement process whose output has no parseable
score. -/
theorem c7_unmeasurable_requeue_witness :
    vmaf_worker_iter 95 2 ⟨"c", "r", 40⟩ ⟨1, "no usable score"⟩
      = [Ev.enqV ⟨"c", "r", 40⟩, Ev.doneV] :=
  c7_unmeasurable_requeue 95 2 ⟨"c", "r", 40⟩ ⟨1, "no usable score"⟩ (by decide)

/-- Membership in the deduplicated list: present in the input and not
among the already-seen keys. -/
theorem mem_dedupAux :
    ∀ (l seen : List String) (x : String),
      x ∈ dedupAux seen l ↔ x ∈ l ∧ x ∉ seen := by
  intro l
  induction l with
  | nil => intro seen x; simp [dedupAux]
  | cons f rest ih =>
    intro seen x
    by_cases hf : f ∈ seen
    · rw [dedupAux, if_pos hf, ih]
      constructor
      · rintro ⟨hx, hns⟩
        exact ⟨List.mem_cons_of_mem f hx, hns⟩
      · rintro ⟨hx, hns⟩
        rcases List.mem_cons.mp hx with rfl | hx
        · exact absurd hf hns
        · exact ⟨hx, hns⟩
    · rw [dedupAux, if_neg hf]
      constructor
      · intro hx
        rcases List.mem_cons.mp hx with rfl | hx
        · exact ⟨List.mem_cons_self x rest, hf⟩
        · rcases (ih (f :: seen) x).mp hx with ⟨hr, hns⟩
          refine ⟨List.mem_cons_of_mem f hr, fun hs => hns (List.mem_cons_of_mem f hs)⟩
      · rintro ⟨hx, hns⟩
        rcases List.mem_cons.mp hx with rfl | hx
        · exact List.mem_cons_self x _
        · by_cases hxf : x = f
          · subst hxf; exact List.mem_cons_self x _
          · refine List.mem_cons_of_mem f ((ih (f :: seen) x).mpr ⟨hx, ?_⟩)
            intro hs
            rcases List.mem_cons.mp hs with h | h
            · exact hxf h
            · exact hns h

/-- The deduplicated list has no duplicates. -/
theorem nodup_dedupAux : ∀ (l seen : List String), (dedupAux seen l).Nodup := by
  intro l
  induction l with
  | nil => intro seen; simp [dedupAux]
  | cons f rest ih =>
    intro seen
    by_cases hf : f ∈ seen
    · rw [dedupAux, if_pos hf]; exact ih seen
    · rw [dedupAux, if_neg hf]
      refine List.nodup_cons.mpr ⟨?_, ih (f :: seen)⟩
      intro hmem
      exact ((mem_dedupAux rest (f :: seen) f).mp hmem).2 (List.mem_cons_self f seen)

/-- The deduplicated list is sorted by position of first occurrence in
the input. -/
theorem pairwise_dedupAux :
    ∀ (l seen : List String),
      List.Pairwise (fun x y => l.indexOf x < l.indexOf y) (dedupAux seen l) := by
  intro l
  induction l with
  | nil => intro seen; simp [dedupAux]
  | cons f rest ih =>
    intro seen
    by_cases hf : f ∈ seen
    · rw [dedupAux, if_pos hf]
      refine (ih seen).imp_of_mem ?_
      intro a b ha hb hab
      have hane : f ≠ a := fun h => ((mem_dedupAux rest seen a).mp ha).2 (h ▸ hf)
      have hbne : f ≠ b := fun h => ((mem_dedupAux rest seen b).mp hb).2 (h ▸ hf)
      rw [List.indexOf_cons_ne rest hane, List.indexOf_cons_ne rest hbne]
      omega
    · rw [dedupAux, if_neg hf]
      refine List.pairwise_cons.mpr ⟨?_, ?_⟩
      · intro y hy
        have hyr := (mem_dedupAux rest (f :: seen) y).mp hy
        have hyne : f ≠ y := fun h => hyr.2 (h ▸ List.mem_cons_self f seen)
        rw [List.indexOf_cons_self f rest, List.indexOf_cons_ne rest hyne]
        omega
      · refine (ih (f :: seen)).imp_of_mem ?_
        intro a b ha hb hab
        have hane : f ≠ a :=
          fun h => ((mem_dedupAux rest (f :: seen) a).mp ha).2 (h ▸ List.mem_cons_self f seen)
        have hbne : f ≠ b :=
          fun h => ((mem_dedupAux rest (f :: seen) b).mp hb).2 (h ▸ List.mem_cons_self f seen)
        rw [List.indexOf_cons_ne rest hane, List.indexOf_cons_ne rest hbne]
        omega

/-- Deduplicating a duplicate-free list whose elements avoid `seen`
returns it unchanged. -/
theorem dedupAux_eq_self :
    ∀ (l seen : List String), l.Nodup → (∀ x ∈ l, x ∉ seen) → dedupAux seen l = l := by
  intro l
  induction l with
  | nil => intro seen _ _; rfl
  | cons f rest ih =>
    intro seen hnd hav
    rw [dedupAux, if_neg (hav f (List.mem_cons_self f rest))]
    congr 1
    refine ih (f :: seen) (List.nodup_cons.mp hnd).2 ?_
    intro x hx hmem
    rcases List.mem_cons.mp hmem with rfl | h
    · exact (List.nodup_cons.mp hnd).1 hx
    · exact hav x (List.mem_cons_of_mem f hx) h

/-- C8: deduplication keeps exactly one copy of each input path
(no duplicates, same membership), in strictly increasing order of first
occurrence; it is idempotent; and seeding the Encode Queue from a list
with repeated source paths produces exactly the same seeded items, in
the same order and all at the initial parameter, as seeding from the
deduplicated list. -/
theorem c8_dedup_first_occurrence (l : List String) (output_dir ext : String)
    (init_cq : Int) :
    (deduplicate_files l).Nodup
  ∧ (∀ x, x ∈ deduplicate_files l ↔ x ∈ l)
  ∧ List.Pairwise (fun x y => l.indexOf x < l.indexOf y) (deduplicate_files l)
  ∧ deduplicate_files (deduplicate_files l) = deduplicate_files l
  ∧ seedItems l output_dir init_cq ext
      = seedItems (deduplicate_files l) output_dir init_cq ext
  ∧ (∀ it ∈ seedItems l output_dir init_cq ext, it.parameter = init_cq) := by
  have hidem : deduplicate_files (deduplicate_files l) = deduplicate_files l :=
    dedupAux_eq_self (dedupAux [] l) [] (nodup_dedupAux l []) (by simp)
  refine ⟨nodup_dedupAux l [], ?_, pairwise_dedupAux l [], hidem, ?_, ?_⟩
  · intro x
    rw [deduplicate_files, mem_dedupAux]
    simp
  · rw [seedItems, seedItems, hidem]
  · intro it hit
    rw [seedItems] at hit
    rcases List.mem_map.mp hit with ⟨f, -, rfl⟩
    rfl

/-- An element of `takeWhile p l` is an element of `l`. -/
theorem mem_of_mem_takeWhileL {p : Char → Bool} :
    ∀ {l : List Char} {c : Char}, c ∈ l.takeWhile p → c ∈ l := by
  intro l
  induction l with
  | nil => intro c h; simp at h
  | cons a t ih =>
    intro c h
    rw [List.takeWhile_cons] at h
    by_cases hp : p a
    · rw [if_pos hp] at h
      rcases List.mem_cons.mp h with rfl | h
      · exact List.mem_cons_self c t
      · exact List.mem_cons_of_mem a (ih h)
    · rw [if_neg hp] at h
      cases h

/-- An element of `dropWhile p l` is an element of `l`. -/
theorem mem_of_mem_dropWhileL {p : Char → Bool} :
    ∀ {l : List Char} {c : Char}, c ∈ l.dropWhile p → c ∈ l := by
  intro l
  induction l with
  | nil => intro c h; simp at h
  | cons a t ih =>
    intro c h
    rw [List.dropWhile_cons] at h
    by_cases hp : p a
    · rw [if_pos hp] at h
      exact List.mem_cons_of_mem a (ih h)
    · rw [if_neg hp] at h
      exact h

/-- `takeWhile` passes over a block that satisfies the predicate
throughout. -/
theorem takeWhile_append_of_all {p : Char → Bool} :
    ∀ {A : List Char} (B : List Char), (∀ a ∈ A, p a = true) →
      (A ++ B).takeWhile p = A ++ B.takeWhile p := by
  intro A
  induction A with
  | nil => intro B _; rfl
  | cons a t ih =>
    intro B hall
    rw [List.cons_append, List.takeWhile_cons, if_pos (hall a (List.mem_cons_self a t)),
      List.cons_append]
    congr 1
    exact ih B fun x hx => hall x (List.mem_cons_of_mem a hx)

/-- `dropWhile` consumes a block that satisfies the predicate
throughout. -/
theorem dropWhile_append_of_all {p : Char → Bool} :
    ∀ {A : List Char} (B : List Char), (∀ a ∈ A, p a = true) →
      (A ++ B).dropWhile p = B.dropWhile p := by
  intro A
  induction A with
  | nil => intro B _; rfl
  | cons a t ih =>
    intro B hall
    rw [List.cons_append, List.dropWhile_cons, if_pos (hall a (List.mem_cons_self a t))]
    exact ih B fun x hx => hall x (List.mem_cons_of_mem a hx)

/-- After `dropWhile p`, a further `takeWhile p` takes nothing. -/
theorem takeWhile_dropWhile_nil {p : Char → Bool} :
    ∀ (l : List Char), (l.dropWhile p).takeWhile p = [] := by
  intro l
  induction l with
  | nil => rfl
  | cons a t ih =>
    rw [List.dropWhile_cons]
    by_cases hp : p a
    · rw [if_pos hp]; exact ih
    · rw [if_neg hp, List.takeWhile_cons, if_neg (by simpa using hp)]

/-- Every character of `basenameL p` is a non-separator. -/
theorem basenameL_no_slash (p : List Char) :
    ∀ c ∈ basenameL p, notSlash c = true := by
  intro c hc
  rw [basenameL, List.mem_reverse] at hc
  exact List.mem_takeWhile_imp hc

/-- Every character of `splitExtRootB b` comes from `b`. -/
theorem splitExtRootB_subset (b : List Char) :
    ∀ c ∈ splitExtRootB b, c ∈ b := by
  intro c hc
  rw [splitExtRootB] at hc
  by_cases hdot : '.' ∈ b.dropWhile isDotC
  · rw [if_pos hdot] at hc
    rcases List.mem_append.mp hc with h | h
    · exact mem_of_mem_takeWhileL h
    · rw [List.mem_reverse] at h
      have h1 := List.mem_of_mem_drop h
      have h2 := mem_of_mem_dropWhileL h1
      rw [List.mem_reverse] at h2
      exact mem_of_mem_dropWhileL h2
  · rw [if_neg hdot] at hc
    exact hc

/-- Appending separator-free text shifts through `basenameL`. -/
theorem basenameL_append_no_slash (X Y : List Char)
    (hY : ∀ c ∈ Y, notSlash c = true) :
    basenameL (X ++ Y) = basenameL X ++ Y := by
  rw [basenameL, basenameL, List.reverse_append,
    takeWhile_append_of_all X.reverse (fun c hc => hY c (List.mem_reverse.mp hc)),
    List.reverse_append, List.reverse_reverse]

/-- The directory part has empty basename: it is empty or ends in the
separator. -/
theorem basenameL_dirPart (p : List Char) : basenameL (dirPart p) = [] := by
  rw [basenameL, dirPart, List.reverse_reverse, takeWhile_dropWhile_nil, List.reverse_nil]

/-- A path decomposes into its directory part and its basename. -/
theorem dirPart_append_basenameL (p : List Char) :
    dirPart p ++ basenameL p = p := by
  rw [dirPart, basenameL, ← List.reverse_append, List.takeWhile_append_dropWhile,
    List.reverse_reverse]

/-- The seeded output file name is a function of the input's basename
alone (for a separator-free extension): it equals the extension-split
basename with the new extension appended. -/
theorem out_nameL_eq_of_basename (p ext : List Char)
    (hext : ∀ c ∈ ext, notSlash c = true) :
    out_nameL p ext = splitExtRootB (basenameL p) ++ ext := by
  have hY : ∀ c ∈ splitExtRootB (basenameL p) ++ ext, notSlash c = true := by
    intro c hc
    rcases List.mem_append.mp hc with h | h
    · exact basenameL_no_slash p c (splitExtRootB_subset (basenameL p) c h)
    · exact hext c h
  rw [out_nameL, splitRoot, List.append_assoc,
    basenameL_append_no_slash (dirPart p) (splitExtRootB (basenameL p) ++ ext) hY,
    basenameL_dirPart, List.nil_append]

/-- C9: the seeded output path depends only on the output directory and
the input's basename (extension replaced by the fixed output
extension); consequently the two distinct inputs `"a/x.mp4"` and
`"b/x.mp4"`, which share a basename, both survive deduplication and are
seeded with the identical output path `"out/x.mkv"`. -/
theorem c9_output_path_collision (output_dir ext p q : String)
    (hext : ∀ c ∈ ext.data, notSlash c = true)
    (hbase : basenameL p.data = basenameL q.data) :
    out_path output_dir p ext = out_path output_dir q ext
  ∧ ("a/x.mp4" : String) ≠ "b/x.mp4"
  ∧ deduplicate_files ["a/x.mp4", "b/x.mp4"] = ["a/x.mp4", "b/x.mp4"]
  ∧ seedItems ["a/x.mp4", "b/x.mp4"] "out" 40 ".mkv"
      = [⟨"a/x.mp4", "out/x.mkv", 40⟩, ⟨"b/x.mp4", "out/x.mkv", 40⟩] := by
  refine ⟨?_, by decide, by decide, by decide⟩
  rw [out_path, out_path, out_nameL_eq_of_basename p.data ext.data hext,
    out_nameL_eq_of_basename q.data ext.data hext, hbase]

/-- C9 witness: `"sub/dir/x.mp4"` and `"x.mp4"` share the basename
`"x.mp4"` and receive the same seeded output path. -/
theorem c9_output_path_collision_witness :
    out_path "out" "sub/dir/x.mp4" ".mkv" = out_path "out" "x.mp4" ".mkv"
  ∧ ("a/x.mp4" : String) ≠ "b/x.mp4"
  ∧ deduplicate_files ["a/x.mp4", "b/x.mp4"] = ["a/x.mp4", "b/x.mp4"]
  ∧ seedItems ["a/x.mp4", "b/x.mp4"] "out" 40 ".mkv"
      = [⟨"a/x.mp4", "out/x.mkv", 40⟩, ⟨"b/x.mp4", "out/x.mkv", 40⟩] :=
  c9_output_path_collision "out" ".mkv" "sub/dir/x.mp4" "x.mp4"
    (by decide) (by decide)

/-- `leadsWith` decides initial-segment: `u` leads `v` iff `v` extends
`u`. -/
theorem leadsWith_iff_exists :
    ∀ (u v : List Char), leadsWith u v = true ↔ ∃ w, v = u ++ w := by
  intro u
  induction u with
  | nil =>
    intro v
    simp [leadsWith]
  | cons c cs ih =>
    intro v
    cases v with
    | nil =>
      simp only [leadsWith]
      constructor
      · intro h; cases h
      · rintro ⟨w, hw⟩; cases hw
    | cons d ds =>
      simp only [leadsWith, Bool.and_eq_true, decide_eq_true_eq, ih ds]
      constructor
      · rintro ⟨rfl, w, rfl⟩
        exact ⟨w, rfl⟩
      · rintro ⟨w, hw⟩
        rw [List.cons_append] at hw
        cases hw
        exact ⟨rfl, w, rfl⟩

/-- `matchNum` succeeds exactly on inputs that begin with one or more
digits, a dot, and one or more digits. -/
theorem matchNum_isSome_iff (cs : List Char) :
    (matchNum cs).isSome = true ↔
      ∃ ds fs b, cs = ds ++ '.' :: (fs ++ b) ∧ ds ≠ [] ∧ fs ≠ []
        ∧ (∀ c ∈ ds, isDigitC c = true) ∧ (∀ c ∈ fs, isDigitC c = true) := by
  constructor
  · intro h
    rw [matchNum] at h
    by_cases hDe : (cs.takeWhile isDigitC).isEmpty = true
    · rw [if_pos hDe] at h; cases h
    · rw [if_neg hDe] at h
      rcases hR : cs.dropWhile isDigitC with _ | ⟨x, T⟩
      · rw [hR] at h
        rw [if_neg (by simp)] at h
        cases h
      · rw [hR] at h
        simp only [List.head?_cons, List.tail_cons] at h
        by_cases hx : x = '.'
        · subst hx
          rw [if_pos rfl] at h
          by_cases hFe : (T.takeWhile isDigitC).isEmpty = true
          · rw [if_pos hFe] at h; cases h
          · refine ⟨cs.takeWhile isDigitC, T.takeWhile isDigitC, T.dropWhile isDigitC,
              ?_, ?_, ?_, ?_, ?_⟩
            · conv_lhs => rw [← List.takeWhile_append_dropWhile isDigitC cs]
              rw [hR, List.takeWhile_append_dropWhile]
            · intro hnil
              rw [hnil] at hDe
              exact hDe rfl
            · intro hnil
              rw [hnil] at hFe
              exact hFe rfl
            · intro c hc
              exact List.mem_takeWhile_imp hc
            · intro c hc
              exact List.mem_takeWhile_imp hc
        · rw [if_neg (by simpa using hx)] at h; cases h
  · rintro ⟨ds, fs, b, rfl, hds, hfs, hd1, hd2⟩
    have hdot : isDigitC '.' = false := by decide
    have hD : (ds ++ '.' :: (fs ++ b)).takeWhile isDigitC = ds := by
      rw [takeWhile_append_of_all ('.' :: (fs ++ b)) hd1, List.takeWhile_cons, if_neg (by simp [hdot]),
        List.append_nil]
    have hR : (ds ++ '.' :: (fs ++ b)).dropWhile isDigitC = '.' :: (fs ++ b) := by
      rw [dropWhile_append_of_all ('.' :: (fs ++ b)) hd1, List.dropWhile_cons,
        if_neg (by simp [hdot])]
    have hF : (fs ++ b).takeWhile isDigitC = fs ++ b.takeWhile isDigitC :=
      takeWhile_append_of_all b hd2
    rw [matchNum, hD, hR]
    simp only [List.head?_cons, List.tail_cons]
    rcases ds with _ | ⟨d, D⟩
    · exact absurd rfl hds
    · rw [if_neg (by simp), if_pos trivial, hF]
      rcases fs with _ | ⟨f, F⟩
      · exact absurd rfl hfs
      · rw [if_neg (by simp)]
        rfl

/-- The scan of `re.search` finds a match somewhere in the remaining
input iff the remaining input, seen past the already-consumed reversed
input, contains a position whose look-behind is the tag and where
`\d+\.\d+` matches. -/
theorem vmafSearch_isSome_iff :
    ∀ (t rpre : List Char),
      (vmafSearch rpre t).isSome = true ↔
        ∃ a ds fs b, t = a ++ ds ++ '.' :: (fs ++ b) ∧ ds ≠ [] ∧ fs ≠ []
          ∧ (∀ c ∈ ds, isDigitC c = true) ∧ (∀ c ∈ fs, isDigitC c = true)
          ∧ leadsWith vmafTagR (a.reverse ++ rpre) = true := by
  intro t
  induction t with
  | nil =>
    intro rpre
    constructor
    · intro h; cases h
    · rintro ⟨a, ds, fs, b, heq, hds, -, -, -, -⟩
      have hlen := congrArg List.length heq
      simp only [List.length_nil, List.length_append, List.length_cons] at hlen
      have : ds.length ≠ 0 := fun h0 => hds (List.length_eq_zero.mp h0)
      omega
  | cons c rest ih =>
    intro rpre
    rw [vmafSearch]
    rcases hscrut : (if leadsWith vmafTagR rpre then matchNum (c :: rest) else none)
      with _ | v
    · have hcase : leadsWith vmafTagR rpre = false ∨ matchNum (c :: rest) = none := by
        by_cases hlb : leadsWith vmafTagR rpre = true
        · rw [if_pos hlb] at hscrut; exact Or.inr hscrut
        · exact Or.inl (Bool.not_eq_true _ ▸ (Bool.eq_false_iff.mpr hlb))
      change (vmafSearch (c :: rpre) rest).isSome = true ↔ _
      rw [ih (c :: rpre)]
      constructor
      · rintro ⟨a', ds, fs, b, heq, hds, hfs, hd1, hd2, hlw⟩
        refine ⟨c :: a', ds, fs, b, by simp [heq, List.append_assoc], hds, hfs, hd1, hd2, ?_⟩
        rw [List.reverse_cons, List.append_assoc, List.singleton_append]
        exact hlw
      · rintro ⟨a, ds, fs, b, heq, hds, hfs, hd1, hd2, hlw⟩
        rcases a with _ | ⟨a0, a'⟩
        · exfalso
          have heq' : c :: rest = ds ++ '.' :: (fs ++ b) := by simpa using heq
          have hlw' : leadsWith vmafTagR rpre = true := by simpa using hlw
          rcases hcase with hlb | hmn
          · rw [hlb] at hlw'; cases hlw'
          · have : (matchNum (c :: rest)).isSome = true :=
              (matchNum_isSome_iff (c :: rest)).mpr ⟨ds, fs, b, heq', hds, hfs, hd1, hd2⟩
            rw [hmn] at this; cases this
        · rw [List.cons_append, List.cons_append] at heq
          injection heq with hc0 hrest
          refine ⟨a', ds, fs, b, hrest, hds, hfs, hd1, hd2, ?_⟩
          rw [List.reverse_cons, List.append_assoc, List.singleton_append] at hlw
          rw [hc0]
          exact hlw
    · have hlb : leadsWith vmafTagR rpre = true := by
        by_cases hlb : leadsWith vmafTagR rpre = true
        · exact hlb
        · rw [if_neg hlb] at hscrut; cases hscrut
      rw [if_pos hlb] at hscrut
      change (some v).isSome = true ↔ _
      simp only [Option.isSome_some, true_iff]
      have hm : (matchNum (c :: rest)).isSome = true := by rw [hscrut]; rfl
      rcases (matchNum_isSome_iff (c :: rest)).mp hm with ⟨ds, fs, b, heq, hds, hfs, hd1, hd2⟩
      exact ⟨[], ds, fs, b, by rw [List.nil_append]; exact heq, hds, hfs, hd1, hd2,
        by rw [List.reverse_nil, List.nil_append]; exact hlb⟩

/-- C10: the measurement-output parser returns a score iff the output
contains the literal text `"VMAF score: "` immediately followed by one
or more digits, a decimal point, and one or more digits; in particular
a score printed without a fractional part parses as `none` and so takes
the unmeasurable path. -/
theorem c10_score_parse_iff (s : String) :
    ((vmaf_get_score s).isSome = true ↔ scoreSpecPattern s)
  ∧ vmaf_get_score "VMAF score: 96" = none := by
  refine ⟨?_, by decide⟩
  rw [vmaf_get_score, vmafSearch_isSome_iff s.data []]
  constructor
  · rintro ⟨a, ds, fs, b, heq, hds, hfs, hd1, hd2, hlw⟩
    rw [List.append_nil] at hlw
    rcases (leadsWith_iff_exists vmafTagR a.reverse).mp hlw with ⟨w, hw⟩
    have ha : a = w.reverse ++ vmafTag := by
      rw [← List.reverse_reverse a, hw, List.reverse_append, vmafTagR,
        List.reverse_reverse]
    refine ⟨w.reverse, ds, fs, b, ?_, hds, hfs, hd1, hd2⟩
    rw [heq, ha]
    try simp [List.append_assoc]
  · rintro ⟨a0, ds, fs, b, heq, hds, hfs, hd1, hd2⟩
    refine ⟨a0 ++ vmafTag, ds, fs, b, ?_, hds, hfs, hd1, hd2, ?_⟩
    · rw [heq]
      try simp [List.append_assoc]
    · rw [List.append_nil]
      refine (leadsWith_iff_exists vmafTagR (a0 ++ vmafTag).reverse).mpr ?_
      refine ⟨a0.reverse, ?_⟩
      rw [List.reverse_append]
      rfl

/-- Updating one position of a list changes `countP` by the difference
of the old and new elements' predicate values (stated over `Int` to
avoid truncated subtraction). -/
theorem countP_set_int {α : Type} (p : α → Bool) :
    ∀ (l : List α) (i : Nat) (x y : α), l.get? i = some y →
      ((l.set i x).countP p : Int)
        = (l.countP p : Int) + (if p x then 1 else 0) - (if p y then 1 else 0) := by
  intro l
  induction l with
  | nil => intro i x y h; cases h
  | cons a t ih =>
    intro i x y h
    cases i with
    | zero =>
      simp only [List.get?] at h
      injection h with h
      subst h
      simp only [List.set]
      rw [List.countP_cons, List.countP_cons]
      by_cases hx : p x <;> by_cases hy : p a <;> simp [hx, hy]
    | succ i =>
      simp only [List.get?] at h
      simp only [List.set]
      rw [List.countP_cons, List.countP_cons]
      have hih := ih i x y h
      by_cases ha : p a <;> simp [ha] <;> omega

/-- `countP` of a constant list whose element fails the predicate. -/
theorem countP_replicate_not {α : Type} (p : α → Bool) (a : α) (hpa : p a = false) :
    ∀ n : Nat, (List.replicate n a).countP p = 0 := by
  intro n
  induction n with
  | zero => rfl
  | succ n ih => rw [List.replicate_succ, List.countP_cons, ih, hpa]; rfl

/-- The initial state satisfies the counter-accounting invariant. -/
theorem qinv_init (input_files : List String) (output_dir : String) (init_cq : Int)
    (ext : String) (nT nV : Nat) :
    QInv (initSys input_files output_dir init_cq ext nT nV) := by
  refine ⟨?_, ?_⟩
  · show ((seedItems input_files output_dir init_cq ext).length : Int)
      = ((seedItems input_files output_dir init_cq ext).length : Int)
        + ((List.replicate nT TW.idle).countP twLive : Int)
    rw [countP_replicate_not twLive TW.idle rfl nT]
    simp
  · show (0 : Int) = ((0 : Nat) : Int) + ((List.replicate nV VW.idle).countP vwLive : Int)
    rw [countP_replicate_not vwLive VW.idle rfl nV]
    simp

/-- Every step preserves the counter-accounting invariant. -/
theorem qinv_step {threshold : Rat} {cq_step : Int} {s s' : Sys}
    (h : QInv s) (hs : Step threshold cq_step s s') : QInv s' := by
  obtain ⟨h1, h2⟩ := h
  cases hs with
  | tGet i it rest hc hw hq =>
    have hset := countP_set_int twLive s.tws i (TW.working it) TW.idle hw
    simp only [twLive, if_pos, if_neg] at hset
    have hlen : s.tqP.length = rest.length + 1 := by rw [hq]; rfl
    refine ⟨?_, h2⟩
    show s.tqO = (rest.length : Int) + ((s.tws.set i (TW.working it)).countP twLive : Int)
    simp only [Bool.false_eq_true, if_false, if_true] at hset
    omega
  | tFin i it enc hc hw =>
    have hset := countP_set_int twLive s.tws i (TW.finishing it) (TW.working it) hw
    simp only [twLive, Bool.false_eq_true, if_false, if_true] at hset
    refine ⟨?_, ?_⟩
    · show s.tqO + ((enqTs (transcode_worker_iter it enc)).length : Int)
        = ((s.tqP ++ enqTs (transcode_worker_iter it enc)).length : Int)
          + ((s.tws.set i (TW.finishing it)).countP twLive : Int)
      rw [List.length_append]
      push_cast
      omega
    · show s.vqO + ((enqVs (transcode_worker_iter it enc)).length : Int)
        = ((s.vqP ++ enqVs (transcode_worker_iter it enc)).length : Int)
          + (s.vws.countP vwLive : Int)
      rw [List.length_append]
      push_cast
      omega
  | tDone i it hc hw =>
    have hset := countP_set_int twLive s.tws i TW.idle (TW.finishing it) hw
    simp only [twLive, Bool.false_eq_true, if_false, if_true] at hset
    refine ⟨?_, h2⟩
    show s.tqO - 1 = (s.tqP.length : Int) + ((s.tws.set i TW.idle).countP twLive : Int)
    omega
  | vGet i it rest hc hw hq =>
    have hset := countP_set_int vwLive s.vws i (VW.working it) VW.idle hw
    simp only [vwLive, Bool.false_eq_true, if_false, if_true] at hset
    have hlen : s.vqP.length = rest.length + 1 := by rw [hq]; rfl
    refine ⟨h1, ?_⟩
    show s.vqO = (rest.length : Int) + ((s.vws.set i (VW.working it)).countP vwLive : Int)
    omega
  | vFin i it proc hc hw =>
    have hset := countP_set_int vwLive s.vws i (VW.finishing it) (VW.working it) hw
    simp only [vwLive, Bool.false_eq_true, if_false, if_true] at hset
    refine ⟨?_, ?_⟩
    · show s.tqO + ((enqTs (vmaf_worker_iter threshold cq_step it proc)).length : Int)
        = ((s.tqP ++ enqTs (vmaf_worker_iter threshold cq_step it proc)).length : Int)
          + (s.tws.countP twLive : Int)
      rw [List.length_append]
      push_cast
      omega
    · show s.vqO + ((enqVs (vmaf_worker_iter threshold cq_step it proc)).length : Int)
        = ((s.vqP ++ enqVs (vmaf_worker_iter threshold cq_step it proc)).length : Int)
          + ((s.vws.set i (VW.finishing it)).countP vwLive : Int)
      rw [List.length_append]
      push_cast
      omega
  | vDone i it hc hw =>
    have hset := countP_set_int vwLive s.vws i VW.idle (VW.finishing it) hw
    simp only [vwLive, Bool.false_eq_true, if_false, if_true] at hset
    refine ⟨h1, ?_⟩
    show s.vqO - 1 = (s.vqP.length : Int) + ((s.vws.set i VW.idle).countP vwLive : Int)
    omega
  | orchCancel hc hg =>
    exact ⟨h1, h2⟩

/-- The invariant holds in every reachable state. -/
theorem qinv_reachable {threshold : Rat} {cq_step : Int} {s0 s : Sys}
    (h0 : QInv s0) (hr : Reachable threshold cq_step s0 s) : QInv s := by
  induction hr with
  | init => exact h0
  | step hr hs ih => exact qinv_step ih hs

/-- C1: in every reachable interleaving, the step that flips
`cancelled` — the exit of `queues_wait_for_done`'s loop followed
immediately by `task.cancel()` — can only occur in a state where both
outstanding counters are zero simultaneously; moreover such a state is
fully quiescent: both buffers are empty and every worker is blocked at
its dequeue, so cancellation never fires while any queue has
`outstanding > 0` or any item is mid-processing. -/
theorem c1_completion_quiescent (threshold : Rat) (cq_step : Int)
    (input_files : List String) (output_dir : String) (init_cq : Int) (ext : String)
    (nT nV : Nat) (s s' : Sys)
    (hr : Reachable threshold cq_step (initSys input_files output_dir init_cq ext nT nV) s)
    (hstep : Step threshold cq_step s s')
    (hbefore : s.cancelled = false) (hfire : s'.cancelled = true) :
    s.tqO = 0 ∧ s.vqO = 0 ∧ s.tqP = [] ∧ s.vqP = []
      ∧ (∀ w ∈ s.tws, w = TW.idle) ∧ (∀ w ∈ s.vws, w = VW.idle) := by
  have hinv := qinv_reachable (qinv_init input_files output_dir init_cq ext nT nV) hr
  obtain ⟨h1, h2⟩ := hinv
  cases hstep with
  | tGet i it rest hc hw hq => exact absurd hfire (by simp [hbefore])
  | tFin i it enc hc hw => exact absurd hfire (by simp [hbefore])
  | tDone i it hc hw => exact absurd hfire (by simp [hbefore])
  | vGet i it rest hc hw hq => exact absurd hfire (by simp [hbefore])
  | vFin i it proc hc hw => exact absurd hfire (by simp [hbefore])
  | vDone i it hc hw => exact absurd hfire (by simp [hbefore])
  | orchCancel hc hg =>
    push_neg at hg
    obtain ⟨hg1, hg2⟩ := hg
    have hqt : s.tqP.length = 0 ∧ s.tws.countP twLive = 0 := by omega
    have hqv : s.vqP.length = 0 ∧ s.vws.countP vwLive = 0 := by omega
    refine ⟨by omega, by omega, List.length_eq_zero.mp hqt.1, List.length_eq_zero.mp hqv.1,
      ?_, ?_⟩
    · intro w hw
      have hnp := List.countP_eq_zero.mp hqt.2 w hw
      cases w with
      | idle => rfl
      | working it => exact absurd rfl hnp
      | finishing it => exact absurd rfl hnp
    · intro w hw
      have hnp := List.countP_eq_zero.mp hqv.2 w hw
      cases w with
      | idle => rfl
      | working it => exact absurd rfl hnp
      | finishing it => exact absurd rfl hnp

/-- C1 witness: with no inputs, the initial state itself is reachable
and quiescent, and the cancel step fires there. -/
theorem c1_completion_quiescent_witness :
    (initSys [] "out" 40 ".mkv" 1 1).tqO = 0
  ∧ (initSys [] "out" 40 ".mkv" 1 1).vqO = 0
  ∧ (initSys [] "out" 40 ".mkv" 1 1).tqP = []
  ∧ (initSys [] "out" 40 ".mkv" 1 1).vqP = []
  ∧ (∀ w ∈ (initSys [] "out" 40 ".mkv" 1 1).tws, w = TW.idle)
  ∧ (∀ w ∈ (initSys [] "out" 40 ".mkv" 1 1).vws, w = VW.idle) :=
  c1_completion_quiescent 95 2 [] "out" 40 ".mkv" 1 1
    (initSys [] "out" 40 ".mkv" 1 1)
    { initSys [] "out" 40 ".mkv" 1 1 with cancelled := true }
    Reachable.init
    (Step.orchCancel rfl (by decide))
    rfl rfl

end BatchTranscoder
